import Mathlib

/-!
Formalization of the MAX-SC-QBF instance generator (`gen_instances.py`) and
model builder (`max_sc_qbf.py`): the instance data model, the textual-format
parser and writer, the covering-set generation patterns with their repair
passes, the triangular coefficient generator, and the set-cover and McCormick
linearization constraints of the MILP model.

Numeric tokens of the instance file are modelled by their integer values (the
tokenizer is whitespace-insensitive and every token of a well-formed file is a
decimal integer).  The seeded pseudo-random source is modelled as an oracle
structure recording the outcome of every draw the generator makes, indexed by
the loop position of the call; quantifying over all oracles covers every
random-source state.
-/

namespace MaxScQbf

/-- A parsed instance: `n`, the covering sets (0-based internally, exactly as
`parse_instance` stores them), and the sparse upper-triangular coefficient
matrix as an association list over pairs `(i, j)` with `i ≤ j`, holding only
nonzero entries, in the row-major order the parser builds its dictionary. -/
structure Instance where
  n : ℕ
  subsets : List (Finset ℕ)
  A : List ((ℕ × ℕ) × ℤ)
deriving DecidableEq

instance {ε α : Type} [DecidableEq ε] [DecidableEq α] :
    DecidableEq (Except ε α) := fun x y =>
  match x, y with
  | .error e, .error f =>
    if h : e = f then .isTrue (by rw [h])
    else .isFalse (fun hc => by cases hc; exact h rfl)
  | .error _, .ok _ => .isFalse (fun hc => by cases hc)
  | .ok _, .error _ => .isFalse (fun hc => by cases hc)
  | .ok a, .ok b =>
    if h : a = b then .isTrue (by rw [h])
    else .isFalse (fun hc => by cases hc; exact h rfl)

/-- Read `k` integer tokens from the stream, returning them together with the
rest of the stream, or `none` when the stream runs out (Python: repeated
`int(next(toks))` guarded by `StopIteration`). -/
def readInts : ℕ → List ℤ → Option (List ℤ × List ℤ)
  | 0, toks => some ([], toks)
  | _ + 1, [] => none
  | k + 1, t :: toks =>
    match readInts k toks with
    | none => none
    | some (vs, rest) => some (t :: vs, rest)

/-- Read the `need` elements of covering set number `lbl` (1-based label, used
only in the error message): each token is range-checked against `1..n` as it is
read, then stored 0-based (`subsets[i].add(k-1)`). -/
def readSet (n : ℤ) (lbl : ℕ) : ℕ → List ℤ → Except String (Finset ℕ × List ℤ)
  | 0, toks => .ok (∅, toks)
  | _ + 1, [] =>
    .error ("Lista de cobertura de S" ++ toString lbl ++ " incompleta.")
  | need + 1, k :: toks =>
    if 1 ≤ k ∧ k ≤ n then
      match readSet n lbl need toks with
      | .error e => .error e
      | .ok (s, rest) => .ok (insert (k - 1).toNat s, rest)
    else
      .error ("Elemento " ++ toString k ++ " fora do universo 1.." ++
        toString n ++ ".")

/-- Read one covering set per declared size, in order (the loop
`for i in range(n)` over `need = s[i]`; a negative declared size reads zero
tokens, as `range` of a negative number is empty). -/
def readSets (n : ℤ) : List ℤ → ℕ → List ℤ → Except String (List (Finset ℕ) × List ℤ)
  | [], _, toks => .ok ([], toks)
  | sz :: sizes, i, toks =>
    match readSet n (i + 1) sz.toNat toks with
    | .error e => .error e
    | .ok (s, rest) =>
      match readSets n sizes (i + 1) rest with
      | .error e => .error e
      | .ok (ss, rest2) => .ok (s :: ss, rest2)

/-- One row of the sparse-dictionary construction: the column index `j` runs
from the diagonal, and only nonzero coefficients are stored
(`if aij != 0.0: A[(i, j)] = aij`). -/
def rowEntries (i : ℕ) : ℕ → List ℤ → List ((ℕ × ℕ) × ℤ)
  | _, [] => []
  | j, a :: row =>
    (if a ≠ 0 then [((i, j), a)] else []) ++ rowEntries i (j + 1) row

/-- The rows of the dictionary construction: row `i` consumes the next
`n - i` coefficients of the flat stream (the nested loops
`for i in range(n): for j in range(i, n)` with a running index). -/
def buildARows : List ℤ → ℕ → ℕ → List ((ℕ × ℕ) × ℤ)
  | _, _, 0 => []
  | coeffs, i, fuel + 1 =>
    rowEntries i i (coeffs.take (fuel + 1)) ++
      buildARows (coeffs.drop (fuel + 1)) (i + 1) fuel

/-- The sparse dictionary `{(i, j) ↦ aij | i ≤ j, aij ≠ 0}` that
`parse_instance` builds from the flat triangular coefficient stream. -/
def buildA (n : ℕ) (coeffs : List ℤ) : List ((ℕ × ℕ) × ℤ) :=
  buildARows coeffs 0 n

/-- Functional model of `parse_instance` over the integer token stream of the
file.  It reads `n`, then `n` set sizes, then the covering sets, then exactly
`n*(n+1)/2` triangular coefficients; any tokens beyond those are ignored. -/
def parse_instance (toks : List ℤ) : Except String Instance :=
  match toks with
  | [] => .error "Arquivo vazio ou n ausente."
  | t :: rest =>
    match readInts t.toNat rest with
    | none => .error "Linha de tamanhos s_i incompleta."
    | some (sizes, rest1) =>
      match readSets t sizes 0 rest1 with
      | .error e => .error e
      | .ok (subsets, rest2) =>
        match readInts (t * (t + 1) / 2).toNat rest2 with
        | none => .error "Matriz A (triangular superior) incompleta."
        | some (coeffs, _) => .ok ⟨t.toNat, subsets, buildA t.toNat coeffs⟩

/-- The constraints `build_and_solve` imposes on the product variable
`y[i][j]`: the `[0,1]` bounds from `addVar(lb=0.0, ub=1.0)`, and the
linearization constraints (`y[i][i] == x[i]` on the diagonal; the three
McCormick inequalities `mc1`, `mc2`, `mc3` off it). -/
def mccormick (i j : ℕ) (xi xj y : ℚ) : Prop :=
  0 ≤ y ∧ y ≤ 1 ∧
    (if i = j then y = xi else y ≤ xi ∧ y ≤ xj ∧ xi + xj - 1 ≤ y)

/-- The indices whose covering set contains element `k`
(`[i for i in range(n) if k in subsets[i]]`). -/
def coverers (n : ℕ) (subsets : List (Finset ℕ)) (k : ℕ) : List ℕ :=
  (List.range n).filter (fun i => k ∈ subsets.getD i ∅)

/-- The set-cover constraint for element `k`: the sum of `x[i]` over the
coverers of `k` is at least `1`. -/
def coverConstraint (n : ℕ) (subsets : List (Finset ℕ)) (x : ℕ → ℚ) (k : ℕ) : Prop :=
  1 ≤ ((coverers n subsets k).map x).sum

/-- Oracle view of the seeded pseudo-random source: each field records the
outcomes of one kind of draw the generator makes, indexed by the loop position
of the call. -/
@[ext]
structure Rng where
  memQ : ℕ → ℕ → Bool
  intervalDraw : ℕ → ℤ
  paretoDraw : ℕ → ℤ
  sampleDraw : ℕ → ℕ → Finset ℕ
  pickDraw : ℕ → ℕ
  diagDraw : ℕ → ℤ
  diagCoin : ℕ → Bool
  offOn : ℕ → ℕ → Bool
  offDraw : ℕ → ℕ → ℤ
  offCoin : ℕ → ℕ → Bool

/-- `_avg_size`: `max(2, int(round(n ** 0.5)))`.  In exact arithmetic
`(Nat.sqrt (4*n) + 1) / 2` is the integer nearest to `√n` (a tie would need
`4*n` to be the square of an odd number, which is impossible). -/
def avg_size (n : ℕ) : ℕ :=
  max 2 ((Nat.sqrt (4 * n) + 1) / 2)

/-- Uniform pattern: element `k` joins set `i` iff the draw
`rng.random() < p` made for `(i, k)` succeeds. -/
def pattern_uniform (n : ℕ) (rng : Rng) : List (Finset ℕ) :=
  (List.range n).map (fun i => (Finset.Icc 1 n).filter (fun k => rng.memQ i k = true))

/-- Interval pattern: set `i` (1-based) is a circular run of length
`L = max(1, int(round(avg * (0.5 + rng.random()))))` starting at `i`;
`intervalDraw i` is the value of the rounded draw. -/
def pattern_interval (n : ℕ) (rng : Rng) : List (Finset ℕ) :=
  (List.range' 1 n).map (fun i =>
    ((List.range (max 1 (rng.intervalDraw i)).toNat).map
      (fun t => (i - 1 + t) % n + 1)).toFinset)

/-- Pareto pattern: `size = max(1, min(3*avg, int(round(avg * min(val, 3.0)))))`
with `paretoDraw i` the value of the inner rounded draw; a size reaching `n`
yields the full universe, otherwise a sample of that size. -/
def pattern_pareto (n : ℕ) (rng : Rng) : List (Finset ℕ) :=
  (List.range n).map (fun i =>
    let size := (max 1 (min (3 * (avg_size n : ℤ)) (rng.paretoDraw i))).toNat
    if n ≤ size then Finset.Icc 1 n else rng.sampleDraw i size)

/-- Index of the currently-smallest set, lowest index on ties
(`min(range(len(S)), key=lambda i: len(S[i]))`). -/
def smallestIdx (S : List (Finset ℕ)) : ℕ :=
  (List.range S.length).foldl
    (fun best i => if (S.getD i ∅).card < (S.getD best ∅).card then i else best) 0

/-- Insert `k` into the set at position `idx`. -/
def addAt (S : List (Finset ℕ)) (idx k : ℕ) : List (Finset ℕ) :=
  S.set idx (insert k (S.getD idx ∅))

/-- The running argmin of the set sizes over the first `m` indices
(`smallestIdx` is `argminAux S S.length`). -/
def argminAux (S : List (Finset ℕ)) (m : ℕ) : ℕ :=
  (List.range m).foldl
    (fun best i => if (S.getD i ∅).card < (S.getD best ∅).card then i else best) 0

/-- Coverage repair: each element of `1..n` contained in no set is added to
the currently-smallest set, in one pass over the initially-missing elements. -/
def enforce_coverage (n : ℕ) (S : List (Finset ℕ)) : List (Finset ℕ) :=
  ((List.range' 1 n).filter (fun k => S.all (fun s => k ∉ s))).foldl
    (fun T k => addAt T (smallestIdx T) k) S

/-- Non-empty repair: each still-empty set receives one random element of
`1..n` (`rng.randrange(1, n+1)`, modelled by `pickDraw i`). -/
def nonempty_fix (rng : Rng) (S : List (Finset ℕ)) : List (Finset ℕ) :=
  (List.range S.length).foldl
    (fun T i => if T.getD i ∅ = ∅ then T.set i {rng.pickDraw i} else T) S

/-- The closed set of covering-set patterns. -/
inductive Pattern
  | uniform
  | interval
  | pareto
deriving DecidableEq

/-- `build_sets`: run the selected pattern, then the coverage repair, then the
non-empty repair. -/
def build_sets (n : ℕ) (pattern : Pattern) (rng : Rng) : List (Finset ℕ) :=
  let S :=
    match pattern with
    | .uniform => pattern_uniform n rng
    | .interval => pattern_interval n rng
    | .pareto => pattern_pareto n rng
  nonempty_fix rng (enforce_coverage n S)

/-- `gen_A_triangular`: row `i` starts with the diagonal draw (a zero draw is
replaced by `+1` or `-1` by a coin flip), followed by one entry per
`j in range(i+1, n)` that is a zero-avoiding draw with probability `density`
(`offOn i j`) and `0` otherwise. -/
def gen_A_triangular (n : ℕ) (rng : Rng) : List (List ℤ) :=
  (List.range n).map (fun i =>
    (if rng.diagDraw i = 0 then (if rng.diagCoin i then 1 else -1)
     else rng.diagDraw i) ::
      (List.range' (i + 1) (n - (i + 1))).map (fun j =>
        if rng.offOn i j then
          (if rng.offDraw i j = 0 then (if rng.offCoin i j then 1 else -1)
           else rng.offDraw i j)
        else 0))

/-- The lines written by `write_instance`: `n`, the sizes line, one ascending
line per covering set, then the triangular rows. -/
def write_instance (n : ℕ) (S : List (Finset ℕ)) (rows : List (List ℤ)) : List String :=
  [toString n, String.intercalate " " (S.map (fun s => toString s.card))] ++
    S.map (fun s => String.intercalate " " ((s.sort (· ≤ ·)).map toString)) ++
    rows.map (fun r => String.intercalate " " (r.map toString))

/-- The integer token stream of the file `write_instance` writes, in the order
the parser's tokenizer yields it. -/
def writeTokens (n : ℕ) (S : List (Finset ℕ)) (rows : List (List ℤ)) : List ℤ :=
  (n : ℤ) :: (S.map (fun s => (s.card : ℤ)) ++
    (S.flatMap (fun s => (s.sort (· ≤ ·)).map (fun k : ℕ => (k : ℤ))) ++ rows.flatten))

/-- One generation run: `build_sets`, then `gen_A_triangular` on the same
random source, then `write_instance` (the per-instance body of `main`). -/
def generate_once (n : ℕ) (pattern : Pattern) (rng : Rng) : List String :=
  write_instance n (build_sets n pattern rng) (gen_A_triangular n rng)

/-- A concrete random source used to instantiate theorems. -/
def trivRng : Rng where
  memQ := fun _ _ => false
  intervalDraw := fun _ => 0
  paretoDraw := fun _ => 0
  sampleDraw := fun _ _ => ∅
  pickDraw := fun _ => 1
  diagDraw := fun _ => 0
  diagCoin := fun _ => true
  offOn := fun _ _ => false
  offDraw := fun _ _ => 0
  offCoin := fun _ _ => true

/-- Claim-side description of a malformed token stream, as the spec lists the
parser's failure situations: the stream is empty or lacks `n`; fewer than `n`
size tokens follow; the covering-set section ends before all declared elements
are read; a covering-set element lies outside `1..n`; or fewer than
`n*(n+1)/2` matrix coefficient tokens remain. -/
def malformedTokens (toks : List ℤ) : Prop :=
  match toks with
  | [] => True
  | t :: rest =>
    rest.length < t.toNat ∨
      ((rest.drop t.toNat).length < ((rest.take t.toNat).map Int.toNat).sum ∨
        (∃ k ∈ (rest.drop t.toNat).take ((rest.take t.toNat).map Int.toNat).sum,
          ¬(1 ≤ k ∧ k ≤ t)) ∨
        ((rest.drop t.toNat).drop ((rest.take t.toNat).map Int.toNat).sum).length <
          (t * (t + 1) / 2).toNat)

/-- Claim-side sparse view of dense triangular rows: row `m`, offset `d` holds
the coefficient of the pair `(m, m + d)`, and zero entries are dropped. -/
def sparsifyRows : ℕ → List (List ℤ) → List ((ℕ × ℕ) × ℤ)
  | _, [] => []
  | i, row :: rows => rowEntries i i row ++ sparsifyRows (i + 1) rows

/-- Offset of row `m` within a flat triangular stream whose first row has `f`
entries. -/
def startOff : ℕ → ℕ → ℕ
  | _, 0 => 0
  | f, m + 1 => f + startOff (f - 1) m

/-- The coefficient the flat row-major triangular stream for size `n` stores
for the pair `(i, j)` (`0` when absent). -/
def coeffAt (n : ℕ) (coeffs : List ℤ) (i j : ℕ) : ℤ :=
  (coeffs.drop (startOff n i)).getD (j - i) 0

/-- Claim-side description of the parser's error messages: every failure
message is one of the five section-specific messages (empty file / missing
`n`; short sizes line; a covering-set list cut short, naming the set; an
element outside the universe, naming the element and the universe; an
incomplete coefficient stream). -/
def sectionMessage (e : String) : Prop :=
  e = "Arquivo vazio ou n ausente." ∨
    e = "Linha de tamanhos s_i incompleta." ∨
    (∃ l : ℕ, e = "Lista de cobertura de S" ++ toString l ++ " incompleta.") ∨
    (∃ k m : ℤ, e = "Elemento " ++ toString k ++ " fora do universo 1.." ++
      toString m ++ ".") ∨
    e = "Matriz A (triangular superior) incompleta."

/-- The covering sets that a well-behaved token stream yields: one chunk of
tokens per declared size, each element shifted to 0-based. -/
def setsOf : List ℤ → List ℤ → List (Finset ℕ)
  | [], _ => []
  | sz :: sizes, toks =>
    ((toks.take sz.toNat).map (fun k => (k - 1).toNat)).toFinset ::
      setsOf sizes (toks.drop sz.toNat)

/-! ### Characterization of the token readers -/

theorem readInts_eq (k : ℕ) (toks : List ℤ) :
    readInts k toks =
      if k ≤ toks.length then some (toks.take k, toks.drop k) else none := by
  induction k generalizing toks with
  | zero => simp [readInts]
  | succ k ih =>
    cases toks with
    | nil => simp [readInts]
    | cons t ts =>
      simp only [readInts, ih ts, List.length_cons]
      by_cases h : k ≤ ts.length
      · rw [if_pos h, if_pos (by omega)]
        simp
      · rw [if_neg h, if_neg (by omega)]

theorem readSet_ok (n : ℤ) (lbl : ℕ) :
    ∀ (need : ℕ) (toks : List ℤ), need ≤ toks.length →
      (∀ k ∈ toks.take need, 1 ≤ k ∧ k ≤ n) →
      readSet n lbl need toks =
        .ok (((toks.take need).map (fun k => (k - 1).toNat)).toFinset,
          toks.drop need) := by
  intro need
  induction need with
  | zero => intro toks _ _; simp [readSet]
  | succ m ih =>
    intro toks hlen hrange
    cases toks with
    | nil => simp at hlen
    | cons k ts =>
      have hk : 1 ≤ k ∧ k ≤ n := hrange k (by simp)
      have hts : ∀ x ∈ ts.take m, 1 ≤ x ∧ x ≤ n := by
        intro x hx
        exact hrange x (by simp [List.take_succ_cons, hx])
      simp only [readSet, if_pos hk, ih ts (by simpa using hlen) hts,
        List.take_succ_cons, List.drop_succ_cons, List.map_cons,
        List.toFinset_cons]

theorem readSet_err (n : ℤ) (lbl : ℕ) :
    ∀ (need : ℕ) (toks : List ℤ),
      ¬(need ≤ toks.length ∧ ∀ k ∈ toks.take need, 1 ≤ k ∧ k ≤ n) →
      ∃ e, readSet n lbl need toks = .error e := by
  intro need
  induction need with
  | zero => intro toks h; exact absurd ⟨Nat.zero_le _, by simp⟩ h
  | succ m ih =>
    intro toks h
    cases toks with
    | nil => exact ⟨_, rfl⟩
    | cons k ts =>
      by_cases hk : 1 ≤ k ∧ k ≤ n
      · have hrec : ¬(m ≤ ts.length ∧ ∀ x ∈ ts.take m, 1 ≤ x ∧ x ≤ n) := by
          intro ⟨h1, h2⟩
          refine h ⟨by simpa using h1, ?_⟩
          intro x hx
          rw [List.take_succ_cons] at hx
          rcases List.mem_cons.mp hx with rfl | hx
          · exact hk
          · exact h2 x hx
        obtain ⟨e, he⟩ := ih ts hrec
        exact ⟨e, by simp [readSet, if_pos hk, he]⟩
      · exact ⟨"Elemento " ++ toString k ++ " fora do universo 1.." ++
          toString n ++ ".", by simp [readSet, if_neg hk]⟩

theorem readSets_ok (n : ℤ) :
    ∀ (sizes : List ℤ) (i : ℕ) (toks : List ℤ),
      (sizes.map Int.toNat).sum ≤ toks.length →
      (∀ k ∈ toks.take (sizes.map Int.toNat).sum, 1 ≤ k ∧ k ≤ n) →
      readSets n sizes i toks =
        .ok (setsOf sizes toks, toks.drop (sizes.map Int.toNat).sum) := by
  intro sizes
  induction sizes with
  | nil => intro i toks _ _; simp [readSets, setsOf]
  | cons sz sizes ih =>
    intro i toks hlen hrange
    simp only [List.map_cons, List.sum_cons] at hlen hrange
    have h1len : sz.toNat ≤ toks.length := le_trans (Nat.le_add_right _ _) hlen
    have h1range : ∀ k ∈ toks.take sz.toNat, 1 ≤ k ∧ k ≤ n := by
      intro k hk
      refine hrange k ?_
      rw [List.take_add]
      exact List.mem_append_left _ hk
    have h2len : (sizes.map Int.toNat).sum ≤ (toks.drop sz.toNat).length := by
      rw [List.length_drop]; omega
    have h2range : ∀ k ∈ (toks.drop sz.toNat).take (sizes.map Int.toNat).sum,
        1 ≤ k ∧ k ≤ n := by
      intro k hk
      refine hrange k ?_
      rw [List.take_add]
      exact List.mem_append_right _ hk
    simp only [readSets, readSet_ok n (i + 1) sz.toNat toks h1len h1range,
      ih (i + 1) (toks.drop sz.toNat) h2len h2range, setsOf, List.drop_drop,
      List.map_cons, List.sum_cons]

theorem readSets_err (n : ℤ) :
    ∀ (sizes : List ℤ) (i : ℕ) (toks : List ℤ),
      ¬((sizes.map Int.toNat).sum ≤ toks.length ∧
        ∀ k ∈ toks.take (sizes.map Int.toNat).sum, 1 ≤ k ∧ k ≤ n) →
      ∃ e, readSets n sizes i toks = .error e := by
  intro sizes
  induction sizes with
  | nil => intro i toks h; exact absurd ⟨Nat.zero_le _, by simp⟩ h
  | cons sz sizes ih =>
    intro i toks h
    simp only [List.map_cons, List.sum_cons] at h
    by_cases h1 : sz.toNat ≤ toks.length ∧ ∀ k ∈ toks.take sz.toNat, 1 ≤ k ∧ k ≤ n
    · have hrec : ¬((sizes.map Int.toNat).sum ≤ (toks.drop sz.toNat).length ∧
          ∀ k ∈ (toks.drop sz.toNat).take (sizes.map Int.toNat).sum,
            1 ≤ k ∧ k ≤ n) := by
        intro ⟨h2, h3⟩
        rw [List.length_drop] at h2
        refine h ⟨by omega, ?_⟩
        intro k hk
        rw [List.take_add] at hk
        rcases List.mem_append.mp hk with hk | hk
        · exact h1.2 k hk
        · exact h3 k hk
      obtain ⟨e, he⟩ := ih (i + 1) (toks.drop sz.toNat) hrec
      exact ⟨e, by simp [readSets, readSet_ok n (i + 1) sz.toNat toks h1.1 h1.2, he]⟩
    · obtain ⟨e, he⟩ := readSet_err n (i + 1) sz.toNat toks h1
      exact ⟨e, by simp [readSets, he]⟩

theorem parse_error_cond (toks : List ℤ) :
    (∃ e, parse_instance toks = .error e) ↔ malformedTokens toks := by
  cases toks with
  | nil => exact ⟨fun _ => trivial, fun _ => ⟨_, rfl⟩⟩
  | cons t rest =>
    by_cases h1 : t.toNat ≤ rest.length
    · have hri : readInts t.toNat rest =
          some (rest.take t.toNat, rest.drop t.toNat) := by
        rw [readInts_eq, if_pos h1]
      by_cases h2 : ((rest.take t.toNat).map Int.toNat).sum ≤
            (rest.drop t.toNat).length ∧
          ∀ k ∈ (rest.drop t.toNat).take
              ((rest.take t.toNat).map Int.toNat).sum, 1 ≤ k ∧ k ≤ t
      · obtain ⟨h2a, h2b⟩ := h2
        have hrs := readSets_ok t (rest.take t.toNat) 0 (rest.drop t.toNat)
          h2a h2b
        by_cases h3 : (t * (t + 1) / 2).toNat ≤
            ((rest.drop t.toNat).drop
              ((rest.take t.toNat).map Int.toNat).sum).length
        · have hri2 : readInts (t * (t + 1) / 2).toNat
              ((rest.drop t.toNat).drop
                ((rest.take t.toNat).map Int.toNat).sum) =
              some (((rest.drop t.toNat).drop
                  ((rest.take t.toNat).map Int.toNat).sum).take
                    (t * (t + 1) / 2).toNat,
                ((rest.drop t.toNat).drop
                  ((rest.take t.toNat).map Int.toNat).sum).drop
                    (t * (t + 1) / 2).toNat) := by
            rw [readInts_eq, if_pos h3]
          simp only [parse_instance, hri, hrs, hri2, malformedTokens]
          constructor
          · rintro ⟨e, he⟩
            cases he
          · rintro (hm | hm | ⟨k, hk, hkr⟩ | hm)
            · omega
            · omega
            · exact absurd (h2b k hk) hkr
            · omega
        · have hri2 : readInts (t * (t + 1) / 2).toNat
              ((rest.drop t.toNat).drop
                ((rest.take t.toNat).map Int.toNat).sum) = none := by
            rw [readInts_eq, if_neg h3]
          simp only [parse_instance, hri, hrs, hri2, malformedTokens]
          exact ⟨fun _ => Or.inr (Or.inr (Or.inr (by omega))),
            fun _ => ⟨_, rfl⟩⟩
      · obtain ⟨e, he⟩ := readSets_err t (rest.take t.toNat) 0
          (rest.drop t.toNat) h2
        simp only [parse_instance, hri, he, malformedTokens]
        refine ⟨fun _ => ?_, fun _ => ⟨e, rfl⟩⟩
        rcases not_and_or.mp h2 with h | h
        · exact Or.inr (Or.inl (by omega))
        · have h' : ∃ k ∈ (rest.drop t.toNat).take
              ((rest.take t.toNat).map Int.toNat).sum, ¬(1 ≤ k ∧ k ≤ t) := by
            by_contra hcon
            push_neg at hcon
            exact h hcon
          obtain ⟨k, hk, hkr⟩ := h'
          exact Or.inr (Or.inr (Or.inl ⟨k, hk, hkr⟩))
    · have hri : readInts t.toNat rest = none := by
        rw [readInts_eq, if_neg h1]
      simp only [parse_instance, hri, malformedTokens]
      exact ⟨fun _ => Or.inl (by omega), fun _ => ⟨_, rfl⟩⟩

theorem readSet_error_message (n : ℤ) (lbl : ℕ) :
    ∀ (need : ℕ) (toks : List ℤ) (e : String),
      readSet n lbl need toks = .error e →
      ((∃ l : ℕ, e = "Lista de cobertura de S" ++ toString l ++
          " incompleta.") ∨
        ∃ k m : ℤ, e = "Elemento " ++ toString k ++ " fora do universo 1.." ++
          toString m ++ ".") := by
  intro need
  induction need with
  | zero => intro toks e h; cases h
  | succ m ih =>
    intro toks e h
    cases toks with
    | nil =>
      simp only [readSet] at h
      cases h
      exact Or.inl ⟨lbl, rfl⟩
    | cons k ts =>
      simp only [readSet] at h
      by_cases hk : 1 ≤ k ∧ k ≤ n
      · rw [if_pos hk] at h
        cases hrec : readSet n lbl m ts with
        | error e' =>
          rw [hrec] at h
          cases h
          exact ih ts e hrec
        | ok q =>
          obtain ⟨s', r'⟩ := q
          simp only [hrec] at h
          cases h
      · rw [if_neg hk] at h
        cases h
        exact Or.inr ⟨k, n, rfl⟩

theorem readSets_error_message (n : ℤ) :
    ∀ (sizes : List ℤ) (i : ℕ) (toks : List ℤ) (e : String),
      readSets n sizes i toks = .error e →
      ((∃ l : ℕ, e = "Lista de cobertura de S" ++ toString l ++
          " incompleta.") ∨
        ∃ k m : ℤ, e = "Elemento " ++ toString k ++ " fora do universo 1.." ++
          toString m ++ ".") := by
  intro sizes
  induction sizes with
  | nil => intro i toks e h; cases h
  | cons sz sizes ih =>
    intro i toks e h
    simp only [readSets] at h
    cases h1 : readSet n (i + 1) sz.toNat toks with
    | error e' =>
      rw [h1] at h
      cases h
      exact readSet_error_message n (i + 1) sz.toNat toks e h1
    | ok q =>
      obtain ⟨s', rest'⟩ := q
      simp only [h1] at h
      cases h2 : readSets n sizes (i + 1) rest' with
      | error e' =>
        rw [h2] at h
        cases h
        exact ih (i + 1) rest' e h2
      | ok r =>
        obtain ⟨ss', rest2⟩ := r
        simp only [h2] at h
        cases h

theorem parse_error_message (toks : List ℤ) :
    ∀ e, parse_instance toks = .error e → sectionMessage e := by
  intro e h
  cases toks with
  | nil =>
    cases h
    exact Or.inl rfl
  | cons t rest =>
    simp only [parse_instance] at h
    cases h1 : readInts t.toNat rest with
    | none =>
      rw [h1] at h
      cases h
      exact Or.inr (Or.inl rfl)
    | some p =>
      obtain ⟨sizes, rest1⟩ := p
      simp only [h1] at h
      cases h2 : readSets t sizes 0 rest1 with
      | error e' =>
        rw [h2] at h
        cases h
        rcases readSets_error_message t sizes 0 rest1 e h2 with hm | hm
        · exact Or.inr (Or.inr (Or.inl hm))
        · exact Or.inr (Or.inr (Or.inr (Or.inl hm)))
      | ok q =>
        obtain ⟨subs, rest2⟩ := q
        simp only [h2] at h
        cases h3 : readInts (t * (t + 1) / 2).toNat rest2 with
        | none =>
          rw [h3] at h
          cases h
          exact Or.inr (Or.inr (Or.inr (Or.inr rfl)))
        | some r =>
          obtain ⟨coeffs, rest3⟩ := r
          simp only [h3] at h
          cases h

/-- C4: `parse_instance` fails exactly on the claim-side malformedness
conditions, never returns a partial result, and every failure carries one of
the five section-identifying messages. -/
theorem parse_instance_error_iff (toks : List ℤ) :
    ((∃ e, parse_instance toks = .error e) ↔ malformedTokens toks) ∧
      ∀ e, parse_instance toks = .error e → sectionMessage e :=
  ⟨parse_error_cond toks, parse_error_message toks⟩

/-! ### The parser ignores surplus tokens -/

theorem readInts_append {k : ℕ} {toks vs rest : List ℤ} (extra : List ℤ)
    (h : readInts k toks = some (vs, rest)) :
    readInts k (toks ++ extra) = some (vs, rest ++ extra) := by
  rw [readInts_eq] at h ⊢
  by_cases hl : k ≤ toks.length
  · rw [if_pos hl] at h
    rw [if_pos (by simp; omega)]
    obtain ⟨rfl, rfl⟩ : vs = toks.take k ∧ rest = toks.drop k := by
      cases h; exact ⟨rfl, rfl⟩
    rw [List.take_append_of_le_length hl, List.drop_append_of_le_length hl]
  · rw [if_neg hl] at h
    cases h

theorem readSet_append (n : ℤ) (lbl : ℕ) :
    ∀ (need : ℕ) (toks extra : List ℤ) (p : Finset ℕ × List ℤ),
      readSet n lbl need toks = .ok p →
      readSet n lbl need (toks ++ extra) = .ok (p.1, p.2 ++ extra) := by
  intro need
  induction need with
  | zero =>
    intro toks extra p h
    simp only [readSet] at h ⊢
    cases h
    rfl
  | succ m ih =>
    intro toks extra p h
    cases toks with
    | nil => cases h
    | cons k ts =>
      rw [List.cons_append]
      simp only [readSet] at h ⊢
      by_cases hk : 1 ≤ k ∧ k ≤ n
      · rw [if_pos hk] at h ⊢
        cases hrec : readSet n lbl m ts with
        | error e => rw [hrec] at h; cases h
        | ok q =>
          obtain ⟨s', rest'⟩ := q
          simp only [hrec] at h
          cases h
          simp only [ih ts extra (s', rest') hrec]
      · rw [if_neg hk] at h
        cases h

theorem readSets_append (n : ℤ) :
    ∀ (sizes : List ℤ) (i : ℕ) (toks extra : List ℤ)
      (p : List (Finset ℕ) × List ℤ),
      readSets n sizes i toks = .ok p →
      readSets n sizes i (toks ++ extra) = .ok (p.1, p.2 ++ extra) := by
  intro sizes
  induction sizes with
  | nil =>
    intro i toks extra p h
    simp only [readSets] at h ⊢
    cases h
    rfl
  | cons sz sizes ih =>
    intro i toks extra p h
    simp only [readSets] at h ⊢
    cases h1 : readSet n (i + 1) sz.toNat toks with
    | error e => rw [h1] at h; cases h
    | ok q =>
      obtain ⟨s', rest'⟩ := q
      simp only [h1] at h
      cases h2 : readSets n sizes (i + 1) rest' with
      | error e => rw [h2] at h; cases h
      | ok r =>
        obtain ⟨ss', rest2⟩ := r
        simp only [h2] at h
        cases h
        simp only [readSet_append n (i + 1) sz.toNat toks extra (s', rest') h1,
          ih (i + 1) rest' extra (ss', rest2) h2]

/-- C10: a successful parse is unchanged by arbitrary extra tokens appended
after the `n*(n+1)/2` matrix coefficients; surplus input is ignored. -/
theorem parse_instance_ignores_surplus (toks : List ℤ) (inst : Instance)
    (extra : List ℤ) (h : parse_instance toks = .ok inst) :
    parse_instance (toks ++ extra) = .ok inst := by
  cases toks with
  | nil => cases h
  | cons t rest =>
    rw [List.cons_append]
    simp only [parse_instance] at h ⊢
    cases h1 : readInts t.toNat rest with
    | none => rw [h1] at h; cases h
    | some p =>
      obtain ⟨sizes, rest1⟩ := p
      simp only [h1] at h
      cases h2 : readSets t sizes 0 rest1 with
      | error e => rw [h2] at h; cases h
      | ok q =>
        obtain ⟨subs, rest2⟩ := q
        simp only [h2] at h
        cases h3 : readInts (t * (t + 1) / 2).toNat rest2 with
        | none => rw [h3] at h; cases h
        | some r =>
          obtain ⟨coeffs, rest3⟩ := r
          simp only [h3] at h
          simp only [readInts_append extra h1,
            readSets_append t sizes 0 rest1 extra (subs, rest2) h2,
            readInts_append extra h3]
          exact h

/-- Witness for C10 at a concrete well-formed file with surplus tokens. -/
theorem parse_instance_ignores_surplus_witness :
    parse_instance ([1, 1, 1, 5] ++ [99, -4, 7]) =
      .ok ⟨1, [{0}], [((0, 0), 5)]⟩ :=
  parse_instance_ignores_surplus [1, 1, 1, 5] ⟨1, [{0}], [((0, 0), 5)]⟩
    [99, -4, 7] (by decide)

/-! ### The keys of the sparse coefficient dictionary -/

theorem getD_take_of_lt (l : List ℤ) (t d : ℕ) (h : d < t) :
    (l.take t).getD d 0 = l.getD d 0 := by
  simp [List.getD_eq_getElem?_getD, List.getElem?_take, h]

theorem getD_eq_zero_of_le (l : List ℤ) (d : ℕ) (h : l.length ≤ d) :
    l.getD d 0 = 0 := by
  simp [List.getD_eq_getElem?_getD, List.getElem?_eq_none h]

theorem rowEntries_mem (i : ℕ) (a : ℤ) :
    ∀ (row : List ℤ) (j p q : ℕ),
      (((p, q), a) ∈ rowEntries i j row ↔
        (p = i ∧ j ≤ q ∧ q < j + row.length ∧
          row.getD (q - j) 0 = a ∧ a ≠ 0)) := by
  intro row
  induction row with
  | nil =>
    intro j p q
    simp only [rowEntries, List.not_mem_nil, false_iff, List.length_nil]
    rintro ⟨_, h1, h2, _⟩
    omega
  | cons b row ih =>
    intro j p q
    simp only [rowEntries, List.mem_append, List.length_cons]
    constructor
    · rintro (hmem | hmem)
      · by_cases hb : b = 0
        · rw [if_neg (not_not_intro hb)] at hmem
          simp at hmem
        · rw [if_pos hb] at hmem
          simp only [List.mem_singleton, Prod.mk.injEq] at hmem
          obtain ⟨⟨rfl, rfl⟩, rfl⟩ := hmem
          exact ⟨rfl, le_refl _, by omega, by simp, hb⟩
      · rw [ih (j + 1) p q] at hmem
        obtain ⟨hp, hjq, hlt, hget, ha⟩ := hmem
        refine ⟨hp, by omega, by omega, ?_, ha⟩
        have hd : q - j = (q - (j + 1)) + 1 := by omega
        rw [hd, List.getD_cons_succ]
        exact hget
    · rintro ⟨hp, hjq, hlt, hget, ha⟩
      by_cases hq : q = j
      · left
        have hba : b = a := by simpa [hq] using hget
        rw [if_pos (by rw [hba]; exact ha)]
        simp [List.mem_singleton, Prod.mk.injEq, hp, hq, hba]
      · right
        rw [ih (j + 1) p q]
        refine ⟨hp, by omega, by omega, ?_, ha⟩
        have hd : q - j = (q - (j + 1)) + 1 := by omega
        rw [hd, List.getD_cons_succ] at hget
        exact hget

theorem buildARows_mem (a : ℤ) :
    ∀ (fuel : ℕ) (coeffs : List ℤ) (i p q : ℕ),
      (((p, q), a) ∈ buildARows coeffs i fuel ↔
        ∃ m, m < fuel ∧ p = i + m ∧ p ≤ q ∧ q < p + (fuel - m) ∧
          (coeffs.drop (startOff fuel m)).getD (q - p) 0 = a ∧ a ≠ 0) := by
  intro fuel
  induction fuel with
  | zero =>
    intro coeffs i p q
    simp [buildARows]
  | succ f ih =>
    intro coeffs i p q
    simp only [buildARows, List.mem_append, rowEntries_mem, ih]
    constructor
    · rintro (⟨rfl, hiq, hlt, hget, ha⟩ | ⟨m, hm, rfl, hpq, hlt, hget, ha⟩)
      · have htl : (coeffs.take (f + 1)).length = min (f + 1) coeffs.length :=
          List.length_take _ _
        have hqi : q - p < f + 1 := by omega
        refine ⟨0, by omega, by omega, hiq, by omega, ?_, ha⟩
        rw [startOff, List.drop_zero, ← getD_take_of_lt coeffs (f + 1) (q - p) hqi]
        exact hget
      · refine ⟨m + 1, by omega, by omega, hpq, by omega, ?_, ha⟩
        rw [startOff, Nat.add_sub_cancel, ← List.drop_drop]
        exact hget
    · rintro ⟨m, hm, rfl, hpq, hlt, hget, ha⟩
      cases m with
      | zero =>
        left
        rw [startOff, List.drop_zero] at hget
        have hql : q - (i + 0) < coeffs.length := by
          by_contra hc
          rw [getD_eq_zero_of_le coeffs _ (by omega)] at hget
          exact ha hget.symm
        have htl : (coeffs.take (f + 1)).length = min (f + 1) coeffs.length :=
          List.length_take _ _
        refine ⟨by omega, by omega, by omega, ?_, ha⟩
        rw [getD_take_of_lt coeffs (f + 1) _ (by omega)]
        simpa using hget
      | succ m =>
        right
        refine ⟨m, by omega, by omega, hpq, by omega, ?_, ha⟩
        rw [List.drop_drop]
        rw [startOff, Nat.add_sub_cancel] at hget
        exact hget

/-- C6: the keys of the sparse dictionary built by `parse_instance` are
exactly the pairs `(i, j)` with `i ≤ j < n` whose coefficient in the flat
triangular stream is nonzero, and the stored value is that coefficient; zero
coefficients produce no entry (hence no product variable `y[i][j]`). -/
theorem buildA_mem_iff (n : ℕ) (coeffs : List ℤ) (i j : ℕ) (a : ℤ) :
    ((i, j), a) ∈ buildA n coeffs ↔
      (i ≤ j ∧ j < n ∧ coeffAt n coeffs i j = a ∧ a ≠ 0) := by
  rw [buildA, buildARows_mem]
  constructor
  · rintro ⟨m, hm, rfl, hpq, hlt, hget, ha⟩
    refine ⟨hpq, by omega, ?_, ha⟩
    simpa [coeffAt] using hget
  · rintro ⟨hij, hjn, hget, ha⟩
    exact ⟨i, by omega, by omega, hij, by omega,
      by simpa [coeffAt] using hget, ha⟩

/-! ### Round-trip of the writer and the parser -/

theorem buildARows_flatten :
    ∀ (rows : List (List ℤ)) (i : ℕ),
      (∀ m < rows.length, (rows.getD m []).length = rows.length - m) →
      buildARows rows.flatten i rows.length = sparsifyRows i rows := by
  intro rows
  induction rows with
  | nil => intro i _; rfl
  | cons row rows ih =>
    intro i hlen
    have h0 : row.length = rows.length + 1 := by simpa using hlen 0 (by simp)
    have hrec : ∀ m < rows.length,
        (rows.getD m []).length = rows.length - m := by
      intro m hm
      simpa using hlen (m + 1) (by simpa using hm)
    simp only [List.length_cons, List.flatten_cons, buildARows, sparsifyRows]
    rw [List.take_left' h0, List.drop_left' h0, ih (i + 1) hrec]

theorem flatten_tri_length :
    ∀ (rows : List (List ℤ)),
      (∀ m < rows.length, (rows.getD m []).length = rows.length - m) →
      rows.flatten.length * 2 = rows.length * (rows.length + 1) := by
  intro rows
  induction rows with
  | nil => intro _; simp
  | cons row rows ih =>
    intro hlen
    have h0 : row.length = rows.length + 1 := by simpa using hlen 0 (by simp)
    have hrec := ih (fun m hm => by simpa using hlen (m + 1) (by simpa using hm))
    simp only [List.flatten_cons, List.length_append, List.length_cons]
    rw [h0]
    calc (rows.length + 1 + rows.flatten.length) * 2
        = (rows.length + 1) * 2 + rows.flatten.length * 2 := by ring
      _ = (rows.length + 1) * 2 + rows.length * (rows.length + 1) := by
          rw [hrec]
      _ = (rows.length + 1) * (rows.length + 1 + 1) := by ring

theorem needed_toNat (n : ℕ) :
    ((n : ℤ) * ((n : ℤ) + 1) / 2).toNat = n * (n + 1) / 2 := by
  have h : (n : ℤ) * ((n : ℤ) + 1) / 2 = ((n * (n + 1) / 2 : ℕ) : ℤ) := by
    rw [Int.natCast_div]
    push_cast
    ring_nf
  rw [h, Int.toNat_natCast]

theorem toFinset_map_list (l : List ℕ) (f : ℕ → ℕ) :
    (l.map f).toFinset = l.toFinset.image f := by
  induction l with
  | nil => simp
  | cons a l ih => simp [ih]

theorem readSet_write (nn : ℕ) (lbl : ℕ) (s : Finset ℕ) (tail : List ℤ)
    (hr : ∀ k ∈ s, 1 ≤ k ∧ k ≤ nn) :
    readSet (nn : ℤ) lbl s.card
        (((s.sort (· ≤ ·)).map (fun k : ℕ => (k : ℤ))) ++ tail) =
      .ok (s.image (fun k => k - 1), tail) := by
  have hlen : ((s.sort (· ≤ ·)).map (fun k : ℕ => (k : ℤ))).length = s.card := by
    simp [Finset.length_sort]
  have h1 : s.card ≤
      (((s.sort (· ≤ ·)).map (fun k : ℕ => (k : ℤ))) ++ tail).length := by
    rw [List.length_append, hlen]
    omega
  have htake : (((s.sort (· ≤ ·)).map (fun k : ℕ => (k : ℤ))) ++ tail).take s.card =
      (s.sort (· ≤ ·)).map (fun k : ℕ => (k : ℤ)) := List.take_left' hlen
  have hdrop : (((s.sort (· ≤ ·)).map (fun k : ℕ => (k : ℤ))) ++ tail).drop s.card =
      tail := List.drop_left' hlen
  have h2 : ∀ k ∈ (((s.sort (· ≤ ·)).map (fun k : ℕ => (k : ℤ))) ++
      tail).take s.card, 1 ≤ k ∧ k ≤ (nn : ℤ) := by
    rw [htake]
    intro k hk
    simp only [List.mem_map] at hk
    obtain ⟨k0, hk0, rfl⟩ := hk
    have hk0s := hr k0 (by simpa [Finset.mem_sort] using hk0)
    exact ⟨by exact_mod_cast hk0s.1, by exact_mod_cast hk0s.2⟩
  rw [readSet_ok (nn : ℤ) lbl s.card _ h1 h2, htake, hdrop]
  have hcomp : ((s.sort (· ≤ ·)).map (fun k : ℕ => (k : ℤ))).map
      (fun k : ℤ => (k - 1).toNat) = (s.sort (· ≤ ·)).map (fun k => k - 1) := by
    rw [List.map_map]
    refine List.map_congr_left ?_
    intro k _
    simp only [Function.comp_apply]
    omega
  rw [hcomp, toFinset_map_list, Finset.sort_toFinset]

theorem readSets_write (nn : ℕ) :
    ∀ (S : List (Finset ℕ)) (i : ℕ) (tail : List ℤ),
      (∀ s ∈ S, ∀ k ∈ s, 1 ≤ k ∧ k ≤ nn) →
      readSets (nn : ℤ) (S.map fun s => (s.card : ℤ)) i
          (S.flatMap (fun s => (s.sort (· ≤ ·)).map (fun k : ℕ => (k : ℤ))) ++ tail) =
        .ok (S.map (fun s => s.image (fun k => k - 1)), tail) := by
  intro S
  induction S with
  | nil => intro i tail _; simp [readSets]
  | cons s S ih =>
    intro i tail hr
    simp only [List.map_cons, List.flatMap_cons, List.append_assoc, readSets,
      Int.toNat_natCast,
      readSet_write nn (i + 1) s
        (S.flatMap (fun s => (s.sort (· ≤ ·)).map (fun k : ℕ => (k : ℤ))) ++ tail)
        (hr s (by simp)),
      ih (i + 1) tail (fun s' hs' => hr s' (by simp [hs']))]

/-- C3: parsing the token stream of the file written for a valid in-memory
instance returns the same instance: the same `n`, the same covering sets
(in the parser's 0-based internal indexing), and the coefficient matrix
restricted to its nonzero entries, zero entries dropped. -/
theorem write_parse_roundtrip (n : ℕ) (S : List (Finset ℕ))
    (rows : List (List ℤ)) (hS : S.length = n)
    (hne : ∀ s ∈ S, s.Nonempty)
    (hrange : ∀ s ∈ S, ∀ k ∈ s, 1 ≤ k ∧ k ≤ n)
    (hrows : rows.length = n)
    (hlen : ∀ m < n, (rows.getD m []).length = n - m) :
    parse_instance (writeTokens n S rows) =
      .ok ⟨n, S.map (fun s => s.image (fun k => k - 1)),
        sparsifyRows 0 rows⟩ := by
  have hlen' : ∀ m < rows.length,
      (rows.getD m []).length = rows.length - m := by
    rw [hrows]; exact hlen
  have hflat2 := flatten_tri_length rows hlen'
  rw [hrows] at hflat2
  have hflatlen : rows.flatten.length = n * (n + 1) / 2 := by omega
  have hsizes_len : (S.map fun s => (s.card : ℤ)).length = n := by
    rw [List.length_map, hS]
  have hri : readInts n
      ((S.map fun s => (s.card : ℤ)) ++
        (S.flatMap (fun s => (s.sort (· ≤ ·)).map (fun k : ℕ => (k : ℤ))) ++
          rows.flatten)) =
      some ((S.map fun s => (s.card : ℤ)),
        S.flatMap (fun s => (s.sort (· ≤ ·)).map (fun k : ℕ => (k : ℤ))) ++
          rows.flatten) := by
    rw [readInts_eq,
      if_pos (by rw [List.length_append, hsizes_len]; omega),
      List.take_left' hsizes_len, List.drop_left' hsizes_len]
  have hri2 : readInts ((n : ℤ) * ((n : ℤ) + 1) / 2).toNat rows.flatten =
      some (rows.flatten, ([] : List ℤ)) := by
    rw [needed_toNat, ← hflatlen, readInts_eq, if_pos (le_refl _),
      List.take_length, List.drop_length]
  have hbuild : buildA n rows.flatten = sparsifyRows 0 rows := by
    rw [buildA, ← hrows]
    exact buildARows_flatten rows 0 hlen'
  simp only [writeTokens, parse_instance, hri, Int.toNat_natCast,
    readSets_write n S 0 rows.flatten hrange, hri2, hbuild]

/-- Witness for C3 at a concrete instance. -/
theorem write_parse_roundtrip_witness :
    parse_instance (writeTokens 2 [{1}, {1, 2}] [[3, 0], [-2]]) =
      .ok ⟨2, [({1} : Finset ℕ), {1, 2}].map (fun s => s.image (fun k => k - 1)),
        sparsifyRows 0 [[3, 0], [-2]]⟩ :=
  write_parse_roundtrip 2 [{1}, {1, 2}] [[3, 0], [-2]] (by decide) (by decide)
    (by decide) (by decide) (by decide)

/-! ### Exactness of the McCormick linearization -/

/-- C1: for a binary assignment of `x` and any pair `i ≤ j`, the constraints
attached to the product variable `y[i][j]` admit exactly one feasible value,
and that value is the product `x i * x j`. -/
theorem mccormick_exact (x : ℕ → ℚ) (i j : ℕ) (y : ℚ)
    (hbin : ∀ m, x m = 0 ∨ x m = 1) (hij : i ≤ j) :
    (mccormick i j (x i) (x j) y ↔ y = x i * x j) := by
  unfold mccormick
  by_cases hd : i = j
  · subst hd
    rw [if_pos rfl]
    rcases hbin i with h | h <;> rw [h]
    · constructor
      · rintro ⟨_, _, rfl⟩
        norm_num
      · rintro rfl
        norm_num
    · constructor
      · rintro ⟨_, _, rfl⟩
        norm_num
      · rintro rfl
        norm_num
  · rw [if_neg hd]
    rcases hbin i with hi | hi <;> rcases hbin j with hj | hj <;> rw [hi, hj]
    · constructor
      · rintro ⟨h1, h2, h3, h4, h5⟩
        norm_num
        linarith
      · rintro rfl
        norm_num
    · constructor
      · rintro ⟨h1, h2, h3, h4, h5⟩
        norm_num
        linarith
      · rintro rfl
        norm_num
    · constructor
      · rintro ⟨h1, h2, h3, h4, h5⟩
        norm_num
        linarith
      · rintro rfl
        norm_num
    · constructor
      · rintro ⟨h1, h2, h3, h4, h5⟩
        norm_num
        linarith
      · rintro rfl
        norm_num

/-- Witness for C1 at a concrete binary assignment. -/
theorem mccormick_exact_witness :
    (mccormick 0 1 1 1 1 ↔ (1 : ℚ) = 1 * 1) :=
  mccormick_exact (fun _ => 1) 0 1 1 (fun _ => Or.inr rfl) (by omega)

/-! ### The set-cover constraints -/

/-- C5: one cover constraint per element `k` (0-based internally), summing
`x i` over exactly the indices whose covering set contains `k`; for binary `x`
the constraints hold iff the selected covering sets jointly cover every
element. -/
theorem cover_constraints_iff (n : ℕ) (subsets : List (Finset ℕ)) (x : ℕ → ℚ)
    (hbin : ∀ i, x i = 0 ∨ x i = 1) :
    ((∀ k < n, coverConstraint n subsets x k) ↔
      ∀ k < n, ∃ i < n, k ∈ subsets.getD i ∅ ∧ x i = 1) := by
  have hmem : ∀ k i, i ∈ coverers n subsets k ↔
      (i < n ∧ k ∈ subsets.getD i ∅) := by
    intro k i
    simp [coverers, List.mem_filter]
  constructor
  · intro h k hk
    have hc := h k hk
    unfold coverConstraint at hc
    by_contra hno
    push_neg at hno
    have hzero : ∀ v ∈ (coverers n subsets k).map x, v = 0 := by
      intro v hv
      simp only [List.mem_map] at hv
      obtain ⟨i, hi, rfl⟩ := hv
      rw [hmem k i] at hi
      rcases hbin i with h0 | h1
      · exact h0
      · exact absurd h1 (hno i hi.1 hi.2)
    rw [List.sum_eq_zero hzero] at hc
    norm_num at hc
  · intro h k hk
    obtain ⟨i, hin, hmem', hx⟩ := h k hk
    unfold coverConstraint
    have hiC : i ∈ coverers n subsets k := (hmem k i).mpr ⟨hin, hmem'⟩
    have hxi : x i ∈ (coverers n subsets k).map x := List.mem_map_of_mem x hiC
    have hnn : ∀ v ∈ (coverers n subsets k).map x, 0 ≤ v := by
      intro v hv
      simp only [List.mem_map] at hv
      obtain ⟨i', _, rfl⟩ := hv
      rcases hbin i' with h0 | h1
      · exact h0.ge
      · rw [h1]
        norm_num
    have hle := List.single_le_sum hnn _ hxi
    rw [hx] at hle
    exact hle

/-- Witness for C5 at a concrete instance and assignment. -/
theorem cover_constraints_iff_witness :
    ((∀ k < 1, coverConstraint 1 [{0}] (fun _ => 1) k) ↔
      ∀ k < 1, ∃ i < 1, k ∈ [({0} : Finset ℕ)].getD i ∅ ∧
        (fun _ => (1 : ℚ)) i = 1) :=
  cover_constraints_iff 1 [{0}] (fun _ => 1) (fun _ => Or.inr rfl)

/-! ### The generated diagonal is never zero -/

/-- C7: every row of the generated triangular matrix starts with a nonzero
diagonal coefficient: a zero draw is replaced by `+1` or `-1`, a nonzero draw
is kept as is. -/
theorem gen_A_diag_nonzero (n : ℕ) (rng : Rng) (i : ℕ) (hi : i < n) :
    ((gen_A_triangular n rng).getD i []).headD 0 ≠ 0 ∧
      (rng.diagDraw i = 0 →
        ((gen_A_triangular n rng).getD i []).headD 0 = 1 ∨
          ((gen_A_triangular n rng).getD i []).headD 0 = -1) ∧
      (rng.diagDraw i ≠ 0 →
        ((gen_A_triangular n rng).getD i []).headD 0 = rng.diagDraw i) := by
  have hrow : (gen_A_triangular n rng).getD i [] =
      (if rng.diagDraw i = 0 then (if rng.diagCoin i then 1 else -1)
       else rng.diagDraw i) ::
        (List.range' (i + 1) (n - (i + 1))).map (fun j =>
          if rng.offOn i j then
            (if rng.offDraw i j = 0 then (if rng.offCoin i j then 1 else -1)
             else rng.offDraw i j)
          else 0) := by
    unfold gen_A_triangular
    rw [List.getD_eq_getElem?_getD, List.getElem?_map, List.getElem?_range hi]
    rfl
  rw [hrow]
  simp only [List.headD_cons]
  by_cases h0 : rng.diagDraw i = 0
  · by_cases hc : rng.diagCoin i
    · simp [h0, hc]
    · simp [h0, hc]
  · simp [h0]

/-- Witness for C7 at a concrete size and random source. -/
theorem gen_A_diag_nonzero_witness :
    ((gen_A_triangular 1 trivRng).getD 0 []).headD 0 ≠ 0 ∧
      (trivRng.diagDraw 0 = 0 →
        ((gen_A_triangular 1 trivRng).getD 0 []).headD 0 = 1 ∨
          ((gen_A_triangular 1 trivRng).getD 0 []).headD 0 = -1) ∧
      (trivRng.diagDraw 0 ≠ 0 →
        ((gen_A_triangular 1 trivRng).getD 0 []).headD 0 = trivRng.diagDraw 0) :=
  gen_A_diag_nonzero 1 trivRng 0 (by omega)

/-! ### Determinism of the generation pipeline -/

/-- C9: the covering sets, the matrix, and the written file are functions of
`n`, the pattern, and the draws of the seeded random source alone: two runs
whose sources make identical draws produce identical covering sets, matrices,
and output files. -/
theorem generation_deterministic (n : ℕ) (p : Pattern) (r₁ r₂ : Rng)
    (h1 : ∀ i k, r₁.memQ i k = r₂.memQ i k)
    (h2 : ∀ i, r₁.intervalDraw i = r₂.intervalDraw i)
    (h3 : ∀ i, r₁.paretoDraw i = r₂.paretoDraw i)
    (h4 : ∀ i m, r₁.sampleDraw i m = r₂.sampleDraw i m)
    (h5 : ∀ i, r₁.pickDraw i = r₂.pickDraw i)
    (h6 : ∀ i, r₁.diagDraw i = r₂.diagDraw i)
    (h7 : ∀ i, r₁.diagCoin i = r₂.diagCoin i)
    (h8 : ∀ i j, r₁.offOn i j = r₂.offOn i j)
    (h9 : ∀ i j, r₁.offDraw i j = r₂.offDraw i j)
    (h10 : ∀ i j, r₁.offCoin i j = r₂.offCoin i j) :
    build_sets n p r₁ = build_sets n p r₂ ∧
      gen_A_triangular n r₁ = gen_A_triangular n r₂ ∧
      generate_once n p r₁ = generate_once n p r₂ := by
  have heq : r₁ = r₂ :=
    Rng.ext (funext₂ h1) (funext h2) (funext h3) (funext₂ h4) (funext h5)
      (funext h6) (funext h7) (funext₂ h8) (funext₂ h9) (funext₂ h10)
  subst heq
  exact ⟨rfl, rfl, rfl⟩

/-! ### Repair passes: coverage and non-emptiness -/

theorem addAt_length (S : List (Finset ℕ)) (idx k : ℕ) :
    (addAt S idx k).length = S.length := by
  simp [addAt]

theorem getD_set_of_ne (T : List (Finset ℕ)) (a i : ℕ) (v : Finset ℕ)
    (h : a ≠ i) : (T.set a v).getD i ∅ = T.getD i ∅ := by
  rw [List.getD_eq_getElem?_getD, List.getElem?_set_ne h,
    ← List.getD_eq_getElem?_getD]

theorem getD_set_self (T : List (Finset ℕ)) (a : ℕ) (v : Finset ℕ)
    (h : a < T.length) : (T.set a v).getD a ∅ = v := by
  rw [List.getD_eq_getElem?_getD, List.getElem?_set_self h]
  rfl

theorem addAt_subset (S : List (Finset ℕ)) (idx k i : ℕ) :
    S.getD i ∅ ⊆ (addAt S idx k).getD i ∅ := by
  unfold addAt
  by_cases hlt : idx < S.length
  · by_cases hi : idx = i
    · subst hi
      rw [getD_set_self S idx _ hlt]
      exact Finset.subset_insert k _
    · rw [getD_set_of_ne S idx i _ hi]
  · rw [List.set_eq_of_length_le (by omega)]

theorem encFold_subset :
    ∀ (L : List ℕ) (T : List (Finset ℕ)) (i : ℕ),
      T.getD i ∅ ⊆
        (L.foldl (fun T k => addAt T (smallestIdx T) k) T).getD i ∅ := by
  intro L
  induction L with
  | nil => intro T i; exact subset_refl _
  | cons a L ih =>
    intro T i
    rw [List.foldl_cons]
    exact subset_trans (addAt_subset T (smallestIdx T) a i) (ih _ i)

theorem encFold_length :
    ∀ (L : List ℕ) (T : List (Finset ℕ)),
      (L.foldl (fun T k => addAt T (smallestIdx T) k) T).length = T.length := by
  intro L
  induction L with
  | nil => intro T; rfl
  | cons a L ih =>
    intro T
    rw [List.foldl_cons, ih, addAt_length]

theorem argminAux_succ (S : List (Finset ℕ)) (m : ℕ) :
    argminAux S (m + 1) =
      if (S.getD m ∅).card < (S.getD (argminAux S m) ∅).card then m
      else argminAux S m := by
  unfold argminAux
  rw [List.range_succ, List.foldl_append]
  rfl

theorem argminAux_spec (S : List (Finset ℕ)) :
    ∀ m, 1 ≤ m →
      (argminAux S m < m ∧
        (∀ i < m, (S.getD (argminAux S m) ∅).card ≤ (S.getD i ∅).card) ∧
        ∀ i < argminAux S m,
          (S.getD (argminAux S m) ∅).card < (S.getD i ∅).card) := by
  intro m
  induction m with
  | zero => intro h; exact absurd h (by omega)
  | succ m ih =>
    intro _
    by_cases hm : 1 ≤ m
    · obtain ⟨h1, h2, h3⟩ := ih hm
      rw [argminAux_succ]
      by_cases hlt : (S.getD m ∅).card < (S.getD (argminAux S m) ∅).card
      · rw [if_pos hlt]
        refine ⟨by omega, ?_, ?_⟩
        · intro i hi
          rcases Nat.lt_succ_iff_lt_or_eq.mp hi with hi' | rfl
          · exact le_trans (le_of_lt hlt) (h2 i hi')
          · exact le_refl _
        · intro i hi
          exact lt_of_lt_of_le hlt (h2 i (by omega))
      · rw [if_neg hlt]
        refine ⟨by omega, ?_, h3⟩
        intro i hi
        rcases Nat.lt_succ_iff_lt_or_eq.mp hi with hi' | rfl
        · exact h2 i hi'
        · omega
    · have hm0 : m = 0 := by omega
      subst hm0
      have h01 : argminAux S 1 = 0 := by
        rw [argminAux_succ]
        have : argminAux S 0 = 0 := rfl
        rw [this, if_neg (lt_irrefl _)]
      rw [h01]
      refine ⟨by omega, ?_, by omega⟩
      intro i hi
      have : i = 0 := by omega
      subst this
      exact le_refl _

theorem smallestIdx_spec (S : List (Finset ℕ)) (h : S ≠ []) :
    smallestIdx S < S.length ∧
      (∀ i < S.length,
        (S.getD (smallestIdx S) ∅).card ≤ (S.getD i ∅).card) ∧
      ∀ i < smallestIdx S,
        (S.getD (smallestIdx S) ∅).card < (S.getD i ∅).card := by
  have h1 : 1 ≤ S.length := by
    cases S with
    | nil => exact absurd rfl h
    | cons a l => simp
  exact argminAux_spec S S.length h1

theorem mem_getD_iff (L : List (Finset ℕ)) (k : ℕ) :
    (∃ i < L.length, k ∈ L.getD i ∅) ↔ ∃ s ∈ L, k ∈ s := by
  constructor
  · rintro ⟨i, hi, hmem⟩
    refine ⟨L[i], List.getElem_mem hi, ?_⟩
    rwa [List.getD_eq_getElem?_getD, List.getElem?_eq_getElem hi] at hmem
  · rintro ⟨s, hs, hks⟩
    obtain ⟨i, hi, rfl⟩ := List.mem_iff_getElem.mp hs
    refine ⟨i, hi, ?_⟩
    rwa [List.getD_eq_getElem?_getD, List.getElem?_eq_getElem hi]

theorem encFold_covers :
    ∀ (L : List ℕ) (T : List (Finset ℕ)), T ≠ [] → ∀ k ∈ L,
      ∃ i < T.length,
        k ∈ (L.foldl (fun T k => addAt T (smallestIdx T) k) T).getD i ∅ := by
  intro L
  induction L with
  | nil =>
    intro T _ k hk
    simp at hk
  | cons a L ih =>
    intro T hT k hk
    rw [List.foldl_cons]
    rcases List.mem_cons.mp hk with rfl | hk'
    · have hidx := (smallestIdx_spec T hT).1
      refine ⟨smallestIdx T, hidx, ?_⟩
      apply encFold_subset
      unfold addAt
      rw [getD_set_self T (smallestIdx T) _ hidx]
      exact Finset.mem_insert_self k _
    · have hT' : addAt T (smallestIdx T) a ≠ [] := by
        intro hc
        apply hT
        have hl := addAt_length T (smallestIdx T) a
        rw [hc] at hl
        simp at hl
        exact List.length_eq_zero.mp hl.symm
      obtain ⟨i, hi, hmem⟩ := ih (addAt T (smallestIdx T) a) hT' k hk'
      rw [addAt_length] at hi
      exact ⟨i, hi, hmem⟩

theorem enforce_coverage_subset (n : ℕ) (S : List (Finset ℕ)) (i : ℕ) :
    S.getD i ∅ ⊆ (enforce_coverage n S).getD i ∅ :=
  encFold_subset _ S i

theorem enforce_coverage_length (n : ℕ) (S : List (Finset ℕ)) :
    (enforce_coverage n S).length = S.length :=
  encFold_length _ S

theorem enforce_coverage_covers (n : ℕ) (S : List (Finset ℕ)) (hS : S ≠ [])
    (k : ℕ) (h1 : 1 ≤ k) (h2 : k ≤ n) :
    ∃ i < S.length, k ∈ (enforce_coverage n S).getD i ∅ := by
  by_cases hc : ∃ i < S.length, k ∈ S.getD i ∅
  · obtain ⟨i, hi, hmem⟩ := hc
    exact ⟨i, hi, enforce_coverage_subset n S i hmem⟩
  · have hmiss : k ∈ (List.range' 1 n).filter
        (fun k => S.all (fun s => k ∉ s)) := by
      rw [List.mem_filter, List.mem_range'_1]
      refine ⟨⟨h1, by omega⟩, ?_⟩
      rw [List.all_eq_true]
      intro s hs
      simp only [decide_eq_true_eq]
      intro hks
      exact hc ((mem_getD_iff S k).mpr ⟨s, hs, hks⟩)
    exact encFold_covers _ S hS k hmiss

theorem nefStep_length (rng : Rng) (T : List (Finset ℕ)) (a : ℕ) :
    (if T.getD a ∅ = ∅ then T.set a {rng.pickDraw a} else T).length =
      T.length := by
  by_cases he : T.getD a ∅ = ∅
  · rw [if_pos he, List.length_set]
  · rw [if_neg he]

theorem nefStep_subset (rng : Rng) (T : List (Finset ℕ)) (a i : ℕ) :
    T.getD i ∅ ⊆
      (if T.getD a ∅ = ∅ then T.set a {rng.pickDraw a} else T).getD i ∅ := by
  by_cases he : T.getD a ∅ = ∅
  · rw [if_pos he]
    by_cases hi : a = i
    · subst hi
      by_cases hlt : a < T.length
      · rw [getD_set_self T a _ hlt, he]
        exact Finset.empty_subset _
      · rw [List.set_eq_of_length_le (by omega)]
    · rw [getD_set_of_ne T a i _ hi]
  · rw [if_neg he]

theorem nefFold_subset (rng : Rng) :
    ∀ (L : List ℕ) (T : List (Finset ℕ)) (i : ℕ),
      T.getD i ∅ ⊆
        (L.foldl (fun T i => if T.getD i ∅ = ∅ then T.set i {rng.pickDraw i}
          else T) T).getD i ∅ := by
  intro L
  induction L with
  | nil => intro T i; exact subset_refl _
  | cons a L ih =>
    intro T i
    rw [List.foldl_cons]
    exact subset_trans (nefStep_subset rng T a i) (ih _ i)

theorem nefFold_length (rng : Rng) :
    ∀ (L : List ℕ) (T : List (Finset ℕ)),
      (L.foldl (fun T i => if T.getD i ∅ = ∅ then T.set i {rng.pickDraw i}
        else T) T).length = T.length := by
  intro L
  induction L with
  | nil => intro T; rfl
  | cons a L ih =>
    intro T
    rw [List.foldl_cons, ih, nefStep_length]

theorem nefFold_nonempty (rng : Rng) :
    ∀ (L : List ℕ) (T : List (Finset ℕ)), (∀ j ∈ L, j < T.length) →
      ∀ i ∈ L,
        (L.foldl (fun T i => if T.getD i ∅ = ∅ then T.set i {rng.pickDraw i}
          else T) T).getD i ∅ ≠ ∅ := by
  intro L
  induction L with
  | nil =>
    intro T _ i hi
    simp at hi
  | cons a L ih =>
    intro T hlen i hi
    rw [List.foldl_cons]
    rcases List.mem_cons.mp hi with rfl | hi'
    · have hstep : ((if T.getD i ∅ = ∅ then T.set i {rng.pickDraw i}
          else T)).getD i ∅ ≠ ∅ := by
        by_cases he : T.getD i ∅ = ∅
        · rw [if_pos he, getD_set_self T i _ (hlen i (List.mem_cons_self i L))]
          simp
        · rw [if_neg he]
          exact he
      intro hc
      apply hstep
      have hsub := nefFold_subset rng L
        (if T.getD i ∅ = ∅ then T.set i {rng.pickDraw i} else T) i
      rw [hc] at hsub
      exact Finset.subset_empty.mp hsub
    · refine ih _ ?_ i hi'
      intro j hj
      rw [nefStep_length]
      exact hlen j (List.mem_cons_of_mem a hj)

theorem nonempty_fix_subset (rng : Rng) (S : List (Finset ℕ)) (i : ℕ) :
    S.getD i ∅ ⊆ (nonempty_fix rng S).getD i ∅ :=
  nefFold_subset rng _ S i

theorem nonempty_fix_length (rng : Rng) (S : List (Finset ℕ)) :
    (nonempty_fix rng S).length = S.length :=
  nefFold_length rng _ S

theorem nonempty_fix_nonempty (rng : Rng) (S : List (Finset ℕ)) (i : ℕ)
    (hi : i < S.length) : (nonempty_fix rng S).getD i ∅ ≠ ∅ :=
  nefFold_nonempty rng (List.range S.length) S
    (fun j hj => List.mem_range.mp hj) i (List.mem_range.mpr hi)

/-- Both repair passes together establish the two generation invariants. -/
theorem repair_invariants (n : ℕ) (rng : Rng) (S0 : List (Finset ℕ))
    (hlen : S0.length = n) (hn : 1 ≤ n) :
    (∀ k, 1 ≤ k → k ≤ n →
      ∃ s ∈ nonempty_fix rng (enforce_coverage n S0), k ∈ s) ∧
      ∀ s ∈ nonempty_fix rng (enforce_coverage n S0), s ≠ ∅ := by
  have hS0ne : S0 ≠ [] := by
    intro hc
    rw [hc] at hlen
    simp at hlen
    omega
  constructor
  · intro k h1 h2
    obtain ⟨i, hi, hmem⟩ := enforce_coverage_covers n S0 hS0ne k h1 h2
    have hmem2 : k ∈ (nonempty_fix rng (enforce_coverage n S0)).getD i ∅ :=
      nonempty_fix_subset rng _ i hmem
    refine (mem_getD_iff _ k).mp ⟨i, ?_, hmem2⟩
    rw [nonempty_fix_length, enforce_coverage_length]
    exact hi
  · intro s hs
    obtain ⟨i, hi, heq⟩ := List.mem_iff_getElem.mp hs
    have hgd : (nonempty_fix rng (enforce_coverage n S0)).getD i ∅ = s := by
      rw [List.getD_eq_getElem?_getD, List.getElem?_eq_getElem hi]
      exact heq
    have hlen2 : i < (enforce_coverage n S0).length := by
      rw [← nonempty_fix_length rng (enforce_coverage n S0)]
      exact hi
    have hne := nonempty_fix_nonempty rng (enforce_coverage n S0) i hlen2
    rw [hgd] at hne
    exact hne

theorem pattern_uniform_length (n : ℕ) (rng : Rng) :
    (pattern_uniform n rng).length = n := by
  simp [pattern_uniform]

theorem pattern_interval_length (n : ℕ) (rng : Rng) :
    (pattern_interval n rng).length = n := by
  simp [pattern_interval]

theorem pattern_pareto_length (n : ℕ) (rng : Rng) :
    (pattern_pareto n rng).length = n := by
  simp [pattern_pareto]

/-- C2: for every `n ≥ 1`, every pattern, and every random source, the sets
returned by `build_sets` cover every element of `1..n`, and none of them is
empty. -/
theorem build_sets_invariants (n : ℕ) (p : Pattern) (rng : Rng) (hn : 1 ≤ n) :
    (∀ k, 1 ≤ k → k ≤ n → ∃ s ∈ build_sets n p rng, k ∈ s) ∧
      ∀ s ∈ build_sets n p rng, s ≠ ∅ := by
  unfold build_sets
  cases p
  · exact repair_invariants n rng _ (pattern_uniform_length n rng) hn
  · exact repair_invariants n rng _ (pattern_interval_length n rng) hn
  · exact repair_invariants n rng _ (pattern_pareto_length n rng) hn

/-- Witness for C2 at a concrete size, pattern and source. -/
theorem build_sets_invariants_witness :
    ∃ s ∈ build_sets 1 Pattern.uniform trivRng, 1 ∈ s :=
  (build_sets_invariants 1 Pattern.uniform trivRng (by decide)).1 1
    (by decide) (by decide)

/-- C8: the coverage-repair pass never removes an element; its single pass
covers every element of `1..n`; and the index it inserts at is that of the
currently-smallest set, ties broken by the lowest index. -/
theorem enforce_coverage_spec (n : ℕ) (S : List (Finset ℕ)) (hS : S ≠ []) :
    (∀ i, S.getD i ∅ ⊆ (enforce_coverage n S).getD i ∅) ∧
      (∀ k, 1 ≤ k → k ≤ n → ∃ s ∈ enforce_coverage n S, k ∈ s) ∧
      ∀ T : List (Finset ℕ), T ≠ [] →
        (smallestIdx T < T.length ∧
          (∀ i < T.length,
            (T.getD (smallestIdx T) ∅).card ≤ (T.getD i ∅).card) ∧
          ∀ i < smallestIdx T,
            (T.getD (smallestIdx T) ∅).card < (T.getD i ∅).card) := by
  refine ⟨fun i => enforce_coverage_subset n S i, ?_,
    fun T hT => smallestIdx_spec T hT⟩
  intro k h1 h2
  obtain ⟨i, hi, hmem⟩ := enforce_coverage_covers n S hS k h1 h2
  refine (mem_getD_iff _ k).mp ⟨i, ?_, hmem⟩
  rw [enforce_coverage_length]
  exact hi

/-- Witness for C8 at a concrete repair run. -/
theorem enforce_coverage_spec_witness :
    ∃ s ∈ enforce_coverage 2 [({1} : Finset ℕ)], 2 ∈ s :=
  (enforce_coverage_spec 2 [({1} : Finset ℕ)] (by decide)).2.1 2
    (by decide) (by decide)

/-- Witness for C9: two runs over the same concrete source. -/
theorem generation_deterministic_witness :
    build_sets 2 Pattern.uniform trivRng = build_sets 2 Pattern.uniform trivRng ∧
      gen_A_triangular 2 trivRng = gen_A_triangular 2 trivRng ∧
      generate_once 2 Pattern.uniform trivRng =
        generate_once 2 Pattern.uniform trivRng :=
  generation_deterministic 2 Pattern.uniform trivRng trivRng
    (fun _ _ => rfl) (fun _ => rfl) (fun _ => rfl) (fun _ _ => rfl)
    (fun _ => rfl) (fun _ => rfl) (fun _ => rfl) (fun _ _ => rfl)
    (fun _ _ => rfl) (fun _ _ => rfl)

end MaxScQbf
